import Mathlib

/-!
# FontPeek Unicode API: the `UCD` request handler

A shallow embedding of `main.go` (functions `intersection` and `UCD`) together
with the library routines the handler calls (`strings.Split` with the
separator `","`, `strconv.ParseInt` with base 10 and bit size 32, Go maps,
`database/sql` connections and row iteration).

A raw query parameter is a `String`; `r.URL.Query().Get(name)` yields `""` for
an absent parameter, so absent and empty parameters coincide. Go strings are
byte sequences and the library routines below walk them byte by byte; here
they walk the characters. The only bytes they tell apart are ASCII (the comma,
the signs, the digits and the letters), which never occur inside the encoding
of another character, and every other character, like each of its bytes, has a
code of 128 or more and is treated alike.
-/

set_option autoImplicit false

namespace FontPeek

/-! ## `strings.Split(s, ",")` -/

/-- Splitting a character sequence at every comma: a sequence with `k` commas
yields `k + 1` pieces, the pieces between the commas, in order. The empty
sequence yields the single empty piece. -/
def splitChars : List Char → List (List Char)
  | [] => [[]]
  | c :: cs =>
    if c = ',' then [] :: splitChars cs
    else
      match splitChars cs with
      | [] => [[c]]
      | piece :: rest => (c :: piece) :: rest

/-- The call `strings.Split(s, ",")`. -/
def Split (s : String) : List String :=
  (splitChars s.toList).map String.mk

/-! ## `strconv.ParseUint` and `strconv.ParseInt`, base 10 -/

/-- The two kinds of `strconv.NumError`. -/
inductive NumError where
  | invalid
  | outOfRange
  deriving DecidableEq, Repr

/-- The constant `maxUint64`. -/
def maxUint64 : Nat := 2 ^ 64 - 1

/-- The helper `lower(c)` of `strconv`: `c | ('x' - 'X')`. -/
def lower (c : Nat) : Nat := c ||| 32

/-- One iteration of the digit loop of `ParseUint(s, 10, bitSize)`: from the
accumulator `n` and the next character, either the new accumulator or the
early return `(value, error)`. Arithmetic is on `uint64`. -/
def parseUintStep (bitSize : Nat) (n : Nat) (c : Char) : Except (Nat × NumError) Nat :=
  let cutoff := maxUint64 / 10 + 1
  let maxVal := 2 ^ bitSize - 1
  let code := c.toNat
  if 48 ≤ code ∧ code ≤ 57 then
    let d := code - 48
    if n ≥ cutoff then .error (maxVal, NumError.outOfRange)
    else
      let n10 := (n * 10) % 2 ^ 64
      let n1 := (n10 + d) % 2 ^ 64
      if n1 < n10 ∨ n1 > maxVal then .error (maxVal, NumError.outOfRange)
      else .ok n1
  else if 97 ≤ lower code ∧ lower code ≤ 122 then
    -- a letter digit: d = lower(c) - 'a' + 10, and d >= base
    .error (0, NumError.invalid)
  else .error (0, NumError.invalid)

/-- The digit loop of `ParseUint`. -/
def parseUintLoop (bitSize : Nat) : Nat → List Char → Nat × Option NumError
  | n, [] => (n, none)
  | n, c :: cs =>
    match parseUintStep bitSize n c with
    | .error (v, e) => (v, some e)
    | .ok n1 => parseUintLoop bitSize n1 cs

/-- The call `strconv.ParseUint(s, 10, bitSize)` on the characters of `s`. -/
def parseUint (s : List Char) (bitSize : Nat) : Nat × Option NumError :=
  match s with
  | [] => (0, some NumError.invalid)
  | _ => parseUintLoop bitSize 0 s

/-- The call `strconv.ParseInt(s, 10, bitSize)` on the characters of `s`:
the returned value and the returned error (`none` for a nil error). -/
def parseIntChars (s : List Char) (bitSize : Nat) : Int × Option NumError :=
  match s with
  | [] => (0, some NumError.invalid)
  | c :: cs =>
    let neg := decide (c = '-')
    let body := if c = '+' then cs else if c = '-' then cs else s
    match parseUint body bitSize with
    | (_, some NumError.invalid) => (0, some NumError.invalid)
    | (un, _) =>
      let cutoff : Nat := 2 ^ (bitSize - 1)
      if !neg ∧ un ≥ cutoff then ((cutoff : Int) - 1, some NumError.outOfRange)
      else if neg ∧ un > cutoff then (-(cutoff : Int), some NumError.outOfRange)
      else if neg then (-(un : Int), none) else ((un : Int), none)

/-- The call `strconv.ParseInt(s, 10, 32)`. -/
def ParseInt (s : String) : Int × Option NumError :=
  parseIntChars s.toList 32

/-- A decimal digit character. -/
def IsDigit (c : Char) : Prop := 48 ≤ c.toNat ∧ c.toNat ≤ 57

instance (c : Char) : Decidable (IsDigit c) :=
  inferInstanceAs (Decidable (48 ≤ c.toNat ∧ c.toNat ≤ 57))

/-- The number a sequence of decimal digits denotes, continuing from `n`. -/
def decimalValue (ds : List Char) (n : Nat) : Nat :=
  ds.foldl (fun a c => 10 * a + (c.toNat - 48)) n

/-! ## Go maps with string keys -/

/-- A Go `map[string]β`, as the list of its entries; every key occurs at most
once when the map is built with `GoMap.set` from `GoMap.empty`. -/
abbrev GoMap (β : Type) := List (String × β)

/-- The map made by `make(map[string]β)`. -/
def GoMap.empty {β : Type} : GoMap β := []

/-- The assignment `m[k] = v`: the entry of `k` is overwritten when there is
one and added otherwise. -/
def GoMap.set {β : Type} : GoMap β → String → β → GoMap β
  | [], k, v => [(k, v)]
  | (k0, v0) :: rest, k, v =>
    if k0 = k then (k, v) :: rest else (k0, v0) :: GoMap.set rest k v

/-- The lookup `v, ok := m[k]`. -/
def GoMap.get {β : Type} : GoMap β → String → Option β
  | [], _ => none
  | (k0, v0) :: rest, k => if k0 = k then some v0 else GoMap.get rest k

/-- The index expression `m[k]` on a `map[string]bool`: a missing key gives
the zero value `false`. -/
def GoMap.index (m : GoMap Bool) (k : String) : Bool :=
  (GoMap.get m k).getD false

/-- The keys of a map. -/
def GoMap.keys {β : Type} (m : GoMap β) : List String := m.map Prod.fst

/-! ## `intersection` -/

/-- The function `intersection(s1, s2)`: the entries of `s2` that occur in
`s1`, in the order of `s2`. -/
def intersection (s1 s2 : List String) : List String :=
  let hash := s1.foldl (fun h e => GoMap.set h e true) GoMap.empty
  s2.foldl (fun inter e => if GoMap.index hash e then inter ++ [e] else inter) []

/-! ## Requests, queries and the Row Store -/

/-- The four raw query parameters of a request, each as returned by
`r.URL.Query().Get`. -/
structure Request where
  cp : String
  fields : String
  limit : String
  offset : String
  deriving DecidableEq, Repr

/-- An argument of `QueryContext`: an `int64` or a `pq.Array` of strings. -/
inductive Arg where
  | int (n : Int)
  | array (xs : List String)
  deriving DecidableEq, Repr

/-- A call of `conn.QueryContext`: the SQL text and the arguments. -/
structure Query where
  sql : String
  args : List Arg
  deriving DecidableEq, Repr

/-- The result of a successful query, a `*sql.Rows`: the column names of
`Columns()` and the rows that `Next()` delivers, in order, each with the
values of its columns. -/
structure Rows (V : Type) where
  cols : List String
  rows : List (List V)

/-- The collaborators of the handler: whether `pgPool.Conn` hands out a
connection, and what `conn.QueryContext` answers to a query (`none` for an
error). -/
structure Env (V : Type) where
  conn : Bool
  query : Query → Option (Rows V)

/-- How a call of `UCD` ends. -/
inductive Response (V : Type) where
  /-- The handler returned without writing a header or a body. -/
  | silent
  /-- The handler panicked in the row loop. -/
  | panicked
  /-- The handler encoded `result` as the JSON body. -/
  | json (result : List (GoMap V))

/-- Everything observable of one call of `UCD`: the connections acquired,
the queries issued on the connection in order, the calls of `conn.Close()`,
and the response. -/
structure Outcome (V : Type) where
  acquired : Nat
  queries : List Query
  closed : Nat
  response : Response V

/-! ## The handler `UCD`, step by step -/

/-- Lines 163-166: the slice `codepoints`. -/
def codepoints (cp : String) : List String :=
  let codepoints := Split cp
  if codepoints.length > 100 then codepoints.take 100 else codepoints

/-- Lines 167-170: the variable `offset` after the error check. -/
def effectiveOffset (raw : String) : Int :=
  match ParseInt raw with
  | (offset, err) => if err ≠ none then 0 else offset

/-- Lines 171-174: the variable `limit` after the check. -/
def effectiveLimit (raw : String) : Int :=
  match ParseInt raw with
  | (limit, err) => if err ≠ none ∨ limit < 0 ∨ limit > 100 then 100 else limit

/-- Lines 175-184: the one call of `conn.QueryContext` the handler makes. -/
def selectQuery (r : Request) : Query :=
  let codepoints := codepoints r.cp
  let offset := effectiveOffset r.offset
  let limit := effectiveLimit r.limit
  if r.cp = "" then
    if offset ≠ 0 then
      ⟨"select * from glyphs offset $1 limit $2", [Arg.int offset, Arg.int limit]⟩
    else
      ⟨"select * from glyphs limit $1", [Arg.int limit]⟩
  else
    ⟨"select * from glyphs where cp = any($1)", [Arg.array codepoints]⟩

/-- Lines 191-194: the slice `validCols`. -/
def validCols (cols fields : List String) : List String :=
  let validCols := intersection cols fields
  if validCols.length = 0 then cols else validCols

/-- Lines 195-198: the map `validColsMap`. -/
def validColsMap (validCols : List String) : GoMap Bool :=
  validCols.foldl (fun m field => GoMap.set m field true) GoMap.empty

/-- The call `glyphs.Scan(columnPointers...)` with `n` destinations of type
`*interface{}`: it fails when the row does not have `n` values and otherwise
stores every value unchanged. -/
def scan {V : Type} (n : Nat) (row : List V) : Option (List V) :=
  if row.length = n then some row else none

/-- Lines 210-214: the body of the loop over `cols`, for the column name
`p.1` and the scanned value `p.2` at the same position. -/
def recordStep {V : Type} (vmap : GoMap Bool) (m : GoMap V) (p : String × V) : GoMap V :=
  if !GoMap.index vmap p.1 then m else GoMap.set m p.1 p.2

/-- Lines 208-215: the map `m` built from the scanned `columns` of one row;
position `i` of `cols` is paired with `columns[i]`. -/
def buildRecord {V : Type} (cols : List String) (vmap : GoMap Bool) (columns : List V) :
    GoMap V :=
  (cols.zip columns).foldl (recordStep vmap) GoMap.empty

/-- Lines 199-217: the row loop, from the rows still to fetch and the
`result` so far; `none` is the panic on a failed `Scan`. -/
def rowLoop {V : Type} (cols : List String) (vmap : GoMap Bool) :
    List (List V) → List (GoMap V) → Option (List (GoMap V))
  | [], result => some result
  | row :: rest, result =>
    match scan cols.length row with
    | none => none
    | some columns => rowLoop cols vmap rest (result ++ [buildRecord cols vmap columns])

/-- The handler `UCD`. -/
def UCD {V : Type} (env : Env V) (r : Request) : Outcome V :=
  let fields := Split r.fields
  if !env.conn then
    ⟨0, [], 0, Response.silent⟩
  else
    let q := selectQuery r
    match env.query q with
    | none => ⟨1, [q], 0, Response.silent⟩
    | some glyphs =>
      let cols := glyphs.cols
      let validCols := validCols cols fields
      let validColsMap := validColsMap validCols
      match rowLoop cols validColsMap glyphs.rows [] with
      | none => ⟨1, [q], 0, Response.panicked⟩
      | some result => ⟨1, [q], 1, Response.json result⟩

/-! ## Sample collaborators -/

/-- A Row Store whose table has the columns `cp` and `name` and two rows; it
answers every query with the whole table. -/
def sampleStore : Env String :=
  ⟨true, fun _ => some ⟨["cp", "name"],
    [["0041", "LATIN CAPITAL LETTER A"], ["0042", "LATIN CAPITAL LETTER B"]]⟩⟩

/-- A Row Store that answers every query with an error. -/
def failingStore : Env String := ⟨true, fun _ => none⟩

/-- A result whose first column has the empty name. -/
def unnamedColumnStore : Env String :=
  ⟨true, fun _ => some ⟨["", "cp"], [["x", "0041"]]⟩⟩

/-- A `cp` parameter with 101 tokens: `0041` a hundred times, then `FFFF`. -/
def manyCodepoints : String :=
  String.join (List.replicate 100 "0041,") ++ "FFFF"

/-- The SQL text of the filter query. -/
def filterSQL : String := "select * from glyphs where cp = any($1)"

/-- The SQL text of the paginated query with an offset. -/
def offsetSQL : String := "select * from glyphs offset $1 limit $2"

/-- The SQL text of the paginated query without an offset. -/
def limitSQL : String := "select * from glyphs limit $1"

/-! ## Facts about `Split` -/

theorem splitChars_ne_nil (l : List Char) : splitChars l ≠ [] := by
  cases l with
  | nil => simp [splitChars]
  | cons c cs =>
    unfold splitChars
    split
    · simp
    · split <;> simp

/-- Joining the pieces with commas gives the sequence back. -/
theorem intercalate_splitChars (l : List Char) :
    List.intercalate [','] (splitChars l) = l := by
  induction l with
  | nil => simp [splitChars, List.intercalate]
  | cons c cs ih =>
    unfold splitChars
    split
    · rename_i hc
      cases hsp : splitChars cs with
      | nil => exact absurd hsp (splitChars_ne_nil cs)
      | cons piece rest =>
        rw [hsp] at ih
        subst hc
        simpa [List.intercalate, List.intersperse] using ih
    · cases hsp : splitChars cs with
      | nil => exact absurd hsp (splitChars_ne_nil cs)
      | cons piece rest =>
        rw [hsp] at ih
        cases rest with
        | nil => simpa [List.intercalate, List.intersperse] using ih
        | cons p2 rest2 => simpa [List.intercalate, List.intersperse] using ih

/-- No piece contains a comma. -/
theorem splitChars_no_comma (l : List Char) :
    ∀ piece ∈ splitChars l, ',' ∉ piece := by
  induction l with
  | nil => simp [splitChars]
  | cons c cs ih =>
    unfold splitChars
    split
    · intro piece hp
      rcases List.mem_cons.mp hp with h | h
      · simp [h]
      · exact ih piece h
    · rename_i hc
      cases hsp : splitChars cs with
      | nil => exact absurd hsp (splitChars_ne_nil cs)
      | cons p rest =>
        rw [hsp] at ih
        intro piece hp
        rcases List.mem_cons.mp hp with h | h
        · subst h
          intro hmem
          rcases List.mem_cons.mp hmem with h1 | h1
          · exact hc h1.symm
          · exact ih p (List.mem_cons_self _ _) h1
        · exact ih piece (List.mem_cons_of_mem _ h)

/-- The number of pieces is the number of commas plus one. -/
theorem length_splitChars (l : List Char) :
    (splitChars l).length = l.count ',' + 1 := by
  induction l with
  | nil => simp [splitChars]
  | cons c cs ih =>
    unfold splitChars
    split
    · rename_i hc
      subst hc
      simp [ih]
    · rename_i hc
      cases hsp : splitChars cs with
      | nil => exact absurd hsp (splitChars_ne_nil cs)
      | cons p rest =>
        rw [hsp] at ih
        have : (c == ',') = false := by simpa using hc
        simp [List.count_cons, this] at ih ⊢
        omega

theorem Split_ne_nil (s : String) : Split s ≠ [] := by
  simp [Split, splitChars_ne_nil]

theorem Split_empty : Split "" = [""] := by decide

/-! ## Facts about `ParseInt` -/

theorem le_decimalValue (ds : List Char) (n : Nat) : n ≤ decimalValue ds n := by
  induction ds generalizing n with
  | nil => simp [decimalValue]
  | cons c cs ih =>
    have := ih (10 * n + (c.toNat - 48))
    simp only [decimalValue, List.foldl_cons] at this ⊢
    omega

theorem parseUintStep_digit (n : Nat) (c : Char) (hn : n < 2 ^ 32) (hc : IsDigit c) :
    parseUintStep 32 n c =
      if 10 * n + (c.toNat - 48) < 2 ^ 32 then .ok (10 * n + (c.toNat - 48))
      else .error (2 ^ 32 - 1, NumError.outOfRange) := by
  unfold IsDigit at hc
  unfold parseUintStep maxUint64
  simp only [hc.1, hc.2, and_self, if_true]
  norm_num at hn ⊢
  have h1 : ¬ (1844674407370955162 ≤ n) := by omega
  have h2 : n * 10 % 18446744073709551616 = n * 10 := Nat.mod_eq_of_lt (by omega)
  have h3 : (n * 10 + (c.toNat - 48)) % 18446744073709551616 = n * 10 + (c.toNat - 48) :=
    Nat.mod_eq_of_lt (by omega)
  rw [if_neg h1, h2, h3]
  by_cases h : 10 * n + (c.toNat - 48) < 4294967296
  · rw [if_pos h, if_neg (by omega)]
    congr 1
    omega
  · rw [if_neg h, if_pos (by omega)]

theorem parseUintStep_not_digit (n : Nat) (c : Char) (hc : ¬ IsDigit c) :
    parseUintStep 32 n c = .error (0, NumError.invalid) := by
  unfold IsDigit at hc
  unfold parseUintStep
  simp only [hc, if_false]
  split <;> rfl

/-- The digit loop on decimal digits: the denoted number when it fits 32 bits,
and the range error otherwise. -/
theorem parseUintLoop_digits (ds : List Char) (n : Nat) (hn : n < 2 ^ 32)
    (hd : ∀ c ∈ ds, IsDigit c) :
    parseUintLoop 32 n ds =
      if decimalValue ds n < 2 ^ 32 then (decimalValue ds n, none)
      else (2 ^ 32 - 1, some NumError.outOfRange) := by
  induction ds generalizing n with
  | nil =>
    norm_num at hn
    simp [parseUintLoop, decimalValue, hn]
  | cons c cs ih =>
    have hc : IsDigit c := hd c (List.mem_cons_self _ _)
    have hcs : ∀ x ∈ cs, IsDigit x := fun x hx => hd x (List.mem_cons_of_mem _ hx)
    unfold parseUintLoop
    rw [parseUintStep_digit n c hn hc]
    by_cases h : 10 * n + (c.toNat - 48) < 2 ^ 32
    · rw [if_pos h]
      simp only
      rw [ih _ h hcs]
      rfl
    · rw [if_neg h]
      simp only
      have := le_decimalValue cs (10 * n + (c.toNat - 48))
      have h2 : ¬ decimalValue (c :: cs) n < 2 ^ 32 := by
        simp only [decimalValue, List.foldl_cons] at this ⊢
        omega
      rw [if_neg h2]

/-- The digit loop on a sequence with a character that is no decimal digit
returns an error. -/
theorem parseUintLoop_not_digits (ds : List Char) (n : Nat)
    (hd : ∃ c ∈ ds, ¬ IsDigit c) : (parseUintLoop 32 n ds).2 ≠ none := by
  induction ds generalizing n with
  | nil => simp at hd
  | cons c cs ih =>
    unfold parseUintLoop
    cases hstep : parseUintStep 32 n c with
    | error e => simp
    | ok n1 =>
      simp only
      apply ih
      obtain ⟨x, hx, hnx⟩ := hd
      rcases List.mem_cons.mp hx with h | h
      · subst h
        rw [parseUintStep_not_digit n x hnx] at hstep
        cases hstep
      · exact ⟨x, h, hnx⟩

/-- An unsigned decimal numeral parses to the number it denotes when that is
below `2 ^ 31`, and to a range error otherwise. -/
theorem ParseInt_digits (ds : List Char) (hne : ds ≠ []) (hd : ∀ c ∈ ds, IsDigit c) :
    ParseInt (String.mk ds) =
      if decimalValue ds 0 < 2 ^ 31 then (((decimalValue ds 0 : Nat) : Int), none)
      else (2 ^ 31 - 1, some NumError.outOfRange) := by
  cases ds with
  | nil => exact absurd rfl hne
  | cons c cs =>
    have hc : IsDigit c := hd c (List.mem_cons_self _ _)
    have hplus : ¬ c = '+' := by
      intro h; subst h; revert hc; decide
    have hminus : ¬ c = '-' := by
      intro h; subst h; revert hc; decide
    unfold ParseInt parseIntChars
    simp only [String.toList, hplus, hminus, if_false, decide_False, parseUint]
    rw [parseUintLoop_digits (c :: cs) 0 (by norm_num) hd]
    by_cases h32 : decimalValue (c :: cs) 0 < 2 ^ 32
    · rw [if_pos h32]
      simp only
      by_cases h31 : decimalValue (c :: cs) 0 < 2 ^ 31
      · rw [if_pos h31]
        simp
        norm_num at h31
        omega
      · rw [if_neg h31]
        simp
        norm_num at h31
        omega
    · rw [if_neg h32, if_neg (by norm_num at h32 ⊢; omega)]
      simp

/-- A decimal numeral with a minus sign parses to the negated number when the
number is at most `2 ^ 31`, and to a range error otherwise. -/
theorem ParseInt_minus_digits (ds : List Char) (hne : ds ≠ []) (hd : ∀ c ∈ ds, IsDigit c) :
    ParseInt (String.mk ('-' :: ds)) =
      if decimalValue ds 0 ≤ 2 ^ 31 then (-((decimalValue ds 0 : Nat) : Int), none)
      else (-2 ^ 31, some NumError.outOfRange) := by
  cases ds with
  | nil => exact absurd rfl hne
  | cons c cs =>
    unfold ParseInt parseIntChars
    have hp : ¬ ('-' = '+') := by decide
    simp only [String.toList, hp, if_false, if_true, decide_True, parseUint]
    rw [parseUintLoop_digits (c :: cs) 0 (by norm_num) hd]
    by_cases h32 : decimalValue (c :: cs) 0 < 2 ^ 32
    · rw [if_pos h32]
      simp only
      by_cases h31 : decimalValue (c :: cs) 0 ≤ 2 ^ 31
      · rw [if_pos h31]
        simp
        norm_num at h31
        omega
      · rw [if_neg h31]
        simp
        norm_num at h31
        omega
    · rw [if_neg h32, if_neg (by norm_num at h32 ⊢; omega)]
      simp

/-! ## Facts about Go maps -/

theorem GoMap.get_set {β : Type} (m : GoMap β) (k : String) (v : β) (k2 : String) :
    GoMap.get (GoMap.set m k v) k2 = if k = k2 then some v else GoMap.get m k2 := by
  induction m with
  | nil => simp [GoMap.set, GoMap.get]
  | cons p rest ih =>
    obtain ⟨k0, v0⟩ := p
    by_cases h0 : k0 = k
    · subst h0
      by_cases h2 : k0 = k2 <;> simp [GoMap.set, GoMap.get, h2]
    · by_cases h2 : k0 = k2
      · subst h2
        have : ¬ k = k0 := fun h => h0 h.symm
        simp [GoMap.set, GoMap.get, h0, this]
      · simp [GoMap.set, GoMap.get, h0, h2, ih]

theorem GoMap.mem_keys_iff {β : Type} (m : GoMap β) (k : String) :
    k ∈ GoMap.keys m ↔ (GoMap.get m k).isSome = true := by
  induction m with
  | nil => simp [GoMap.keys, GoMap.get]
  | cons p rest ih =>
    obtain ⟨k0, v0⟩ := p
    by_cases h : k0 = k
    · simp [GoMap.keys, GoMap.get, h]
    · have h2 : ¬ k = k0 := fun e => h e.symm
      simp only [GoMap.keys, List.map_cons, List.mem_cons, h2, false_or, GoMap.get, h,
        if_false]
      simpa [GoMap.keys] using ih

theorem GoMap.keys_set {β : Type} (m : GoMap β) (k : String) (v : β) :
    GoMap.keys (GoMap.set m k v) =
      if k ∈ GoMap.keys m then GoMap.keys m else GoMap.keys m ++ [k] := by
  induction m with
  | nil => simp [GoMap.set, GoMap.keys]
  | cons p rest ih =>
    obtain ⟨k0, v0⟩ := p
    by_cases h : k0 = k
    · subst h
      simp [GoMap.set, GoMap.keys]
    · have h2 : ¬ k = k0 := fun e => h e.symm
      simp only [GoMap.keys] at ih
      simp only [GoMap.set, h, if_false, GoMap.keys, List.map_cons, List.mem_cons, h2,
        false_or, ih]
      split <;> simp

/-- An assignment keeps every key single. -/
theorem GoMap.nodup_keys_set {β : Type} (m : GoMap β) (k : String) (v : β)
    (h : (GoMap.keys m).Nodup) : (GoMap.keys (GoMap.set m k v)).Nodup := by
  rw [GoMap.keys_set]
  split
  · exact h
  · rename_i hk
    rw [List.nodup_append]
    refine ⟨h, List.nodup_singleton k, ?_⟩
    intro a ha hb
    rw [List.mem_singleton] at hb
    subst hb
    exact hk ha

theorem GoMap.index_set (m : GoMap Bool) (k : String) (v : Bool) (k2 : String) :
    GoMap.index (GoMap.set m k v) k2 = if k = k2 then v else GoMap.index m k2 := by
  unfold GoMap.index
  rw [GoMap.get_set]
  split <;> simp

/-- A map filled with `true` at the entries of a list answers `true` exactly
at those entries and at the keys that were `true` before. -/
theorem GoMap.index_foldl_set_true (l : List String) (m : GoMap Bool) (k : String) :
    GoMap.index (l.foldl (fun h e => GoMap.set h e true) m) k = true ↔
      k ∈ l ∨ GoMap.index m k = true := by
  induction l generalizing m with
  | nil => simp
  | cons e rest ih =>
    rw [List.foldl_cons, ih, GoMap.index_set]
    by_cases h : e = k
    · simp [h]
    · have h2 : ¬ k = e := fun x => h x.symm
      simp [h, h2]

theorem GoMap.index_empty (k : String) : GoMap.index GoMap.empty k = false := by
  simp [GoMap.index, GoMap.empty, GoMap.get]

/-! ## Facts about `intersection` and `validCols` -/

theorem intersection_loop (p : String → Bool) (l acc : List String) :
    l.foldl (fun inter e => if p e then inter ++ [e] else inter) acc = acc ++ l.filter p := by
  induction l generalizing acc with
  | nil => simp
  | cons e rest ih =>
    rw [List.foldl_cons, ih]
    by_cases h : p e <;> simp [h, List.filter_cons]

/-- The result of `intersection` is its second argument filtered by membership
in the first. -/
theorem intersection_eq_filter (s1 s2 : List String) :
    intersection s1 s2 = s2.filter (fun e => decide (e ∈ s1)) := by
  unfold intersection
  simp only
  rw [intersection_loop (fun e => GoMap.index (s1.foldl (fun h e => GoMap.set h e true) GoMap.empty) e)]
  simp only [List.nil_append]
  apply List.filter_congr
  intro e _
  have := GoMap.index_foldl_set_true s1 GoMap.empty e
  simp only [GoMap.index_empty, Bool.false_eq_true, or_false] at this
  by_cases h : e ∈ s1
  · simp [h, this.mpr h]
  · have : GoMap.index (s1.foldl (fun h e => GoMap.set h e true) GoMap.empty) e = false := by
      cases hx : GoMap.index (s1.foldl (fun h e => GoMap.set h e true) GoMap.empty) e with
      | false => rfl
      | true => exact absurd (this.mp hx) h
    simp [h, this]

theorem mem_intersection (s1 s2 : List String) (k : String) :
    k ∈ intersection s1 s2 ↔ k ∈ s2 ∧ k ∈ s1 := by
  rw [intersection_eq_filter]
  simp [List.mem_filter]

theorem index_validColsMap (l : List String) (k : String) :
    GoMap.index (validColsMap l) k = true ↔ k ∈ l := by
  unfold validColsMap
  rw [GoMap.index_foldl_set_true]
  simp [GoMap.index_empty]

theorem validCols_of_inter_ne (cols fields : List String)
    (h : intersection cols fields ≠ []) : validCols cols fields = intersection cols fields := by
  unfold validCols
  simp only
  rw [if_neg]
  simpa using h

theorem validCols_of_inter_nil (cols fields : List String)
    (h : intersection cols fields = []) : validCols cols fields = cols := by
  unfold validCols
  simp [h]

theorem validCols_of_no_match (cols fields : List String) (h : ∀ f ∈ fields, f ∉ cols) :
    validCols cols fields = cols := by
  apply validCols_of_inter_nil
  rw [List.eq_nil_iff_forall_not_mem]
  intro k hk
  have := (mem_intersection cols fields k).mp hk
  exact h k this.1 this.2

theorem validCols_subset (cols fields : List String) :
    ∀ c ∈ validCols cols fields, c ∈ cols := by
  intro c hc
  by_cases h : intersection cols fields = []
  · rw [validCols_of_inter_nil _ _ h] at hc; exact hc
  · rw [validCols_of_inter_ne _ _ h] at hc
    exact ((mem_intersection _ _ _).mp hc).2

/-! ## Facts about `buildRecord` and the row loop -/

theorem buildRecord_eq {V : Type} (cols : List String) (vmap : GoMap Bool) (columns : List V) :
    buildRecord cols vmap columns = (cols.zip columns).foldl (recordStep vmap) GoMap.empty := rfl

theorem get_recordStep {V : Type} (vmap : GoMap Bool) (m : GoMap V) (p : String × V)
    (k : String) :
    GoMap.get (recordStep vmap m p) k =
      if GoMap.index vmap p.1 = true ∧ p.1 = k then some p.2 else GoMap.get m k := by
  unfold recordStep
  by_cases hv : GoMap.index vmap p.1 = true
  · simp [hv, GoMap.get_set]
  · simp [hv]

/-- Keys of the folded record: the keys before, and the admitted names of the
list. -/
theorem isSome_get_foldl_recordStep {V : Type} (vmap : GoMap Bool) (l : List (String × V))
    (m : GoMap V) (k : String) :
    (GoMap.get (l.foldl (recordStep vmap) m) k).isSome = true ↔
      (GoMap.get m k).isSome = true ∨ (GoMap.index vmap k = true ∧ k ∈ l.map Prod.fst) := by
  induction l generalizing m with
  | nil => simp
  | cons p rest ih =>
    rw [List.foldl_cons, ih, get_recordStep]
    by_cases hk : p.1 = k
    · subst hk
      by_cases hv : GoMap.index vmap p.1 = true
      · simp [hv]
      · simp [hv]
    · have hk2 : ¬ k = p.1 := fun e => hk e.symm
      simp [hk, hk2]

/-- Entries for other keys leave the value of a key alone. -/
theorem get_foldl_recordStep_of_not_mem {V : Type} (vmap : GoMap Bool)
    (l : List (String × V)) (m : GoMap V) (k : String) (h : k ∉ l.map Prod.fst) :
    GoMap.get (l.foldl (recordStep vmap) m) k = GoMap.get m k := by
  induction l generalizing m with
  | nil => simp
  | cons p rest ih =>
    have h1 : ¬ p.1 = k := fun e => h (by simp [e])
    have h2 : k ∉ rest.map Prod.fst := fun e => h (by simp at e ⊢; exact Or.inr e)
    rw [List.foldl_cons, ih _ h2, get_recordStep]
    simp [h1]

/-- The value stored for an admitted column that is the last of its name. -/
theorem get_foldl_recordStep_last {V : Type} (vmap : GoMap Bool) :
    ∀ (cols : List String) (columns : List V) (m : GoMap V) (j : Nat) (c : String) (v : V),
      cols[j]? = some c → columns[j]? = some v → GoMap.index vmap c = true →
      (∀ j2, j < j2 → cols[j2]? ≠ some c) →
      GoMap.get ((cols.zip columns).foldl (recordStep vmap) m) c = some v
  | [], _, _, j, c, v, hc, _, _, _ => by simp at hc
  | _ :: _, [], _, j, c, v, _, hv, _, _ => by simp at hv
  | c0 :: cs, v0 :: vs, m, 0, c, v, hc, hv, hidx, hlast => by
    simp only [List.getElem?_cons_zero, Option.some.injEq] at hc hv
    subst hc; subst hv
    rw [List.zip_cons_cons, List.foldl_cons]
    have hnot : c0 ∉ (cs.zip vs).map Prod.fst := by
      intro hmem
      rw [List.mem_map] at hmem
      obtain ⟨⟨a, b⟩, hab, ha⟩ := hmem
      simp only at ha
      subst ha
      have hacs : a ∈ cs := (List.of_mem_zip hab).1
      obtain ⟨i, hi, hget⟩ := List.getElem_of_mem hacs
      apply hlast (i + 1) (Nat.succ_pos i)
      simp [List.getElem?_eq_getElem hi, hget]
    rw [get_foldl_recordStep_of_not_mem _ _ _ _ hnot, get_recordStep]
    simp [hidx]
  | c0 :: cs, v0 :: vs, m, j + 1, c, v, hc, hv, hidx, hlast => by
    simp only [List.getElem?_cons_succ] at hc hv
    rw [List.zip_cons_cons, List.foldl_cons]
    apply get_foldl_recordStep_last vmap cs vs _ j c v hc hv hidx
    intro j2 hj2
    have := hlast (j2 + 1) (by omega)
    simpa using this

theorem map_fst_zip_of_length_eq {V : Type} (cols : List String) (columns : List V)
    (h : columns.length = cols.length) : (cols.zip columns).map Prod.fst = cols := by
  rw [← List.unzip_fst, List.unzip_zip h.symm]

/-- The key set of a record: the admitted column names. -/
theorem mem_keys_buildRecord {V : Type} (cols : List String) (vmap : GoMap Bool)
    (columns : List V) (h : columns.length = cols.length) (k : String) :
    k ∈ GoMap.keys (buildRecord cols vmap columns) ↔ GoMap.index vmap k = true ∧ k ∈ cols := by
  rw [GoMap.mem_keys_iff, buildRecord_eq, isSome_get_foldl_recordStep,
    map_fst_zip_of_length_eq cols columns h]
  simp [GoMap.empty, GoMap.get]

theorem nodup_keys_foldl_recordStep {V : Type} (vmap : GoMap Bool) (l : List (String × V))
    (m : GoMap V) (h : (GoMap.keys m).Nodup) :
    (GoMap.keys (l.foldl (recordStep vmap) m)).Nodup := by
  induction l generalizing m with
  | nil => exact h
  | cons p rest ih =>
    rw [List.foldl_cons]
    apply ih
    unfold recordStep
    split
    · exact h
    · exact GoMap.nodup_keys_set m p.1 p.2 h

/-- Every key of a record occurs once. -/
theorem nodup_keys_buildRecord {V : Type} (cols : List String) (vmap : GoMap Bool)
    (columns : List V) : (GoMap.keys (buildRecord cols vmap columns)).Nodup := by
  rw [buildRecord_eq]
  apply nodup_keys_foldl_recordStep
  simp [GoMap.keys, GoMap.empty]

/-- With one value per column in every row, the row loop ends without a panic
and appends one record per row, in order. -/
theorem rowLoop_eq {V : Type} (cols : List String) (vmap : GoMap Bool) :
    ∀ (rows : List (List V)) (acc : List (GoMap V)),
      (∀ row ∈ rows, row.length = cols.length) →
      rowLoop cols vmap rows acc = some (acc ++ rows.map (buildRecord cols vmap))
  | [], acc, _ => by simp [rowLoop]
  | row :: rest, acc, h => by
    have hrow : row.length = cols.length := h row (List.mem_cons_self _ _)
    have hrest : ∀ r ∈ rest, r.length = cols.length :=
      fun r hr => h r (List.mem_cons_of_mem _ hr)
    simp only [rowLoop, scan, hrow, if_true]
    rw [rowLoop_eq cols vmap rest _ hrest]
    simp

/-- The whole handler on the path where a connection is acquired, the query
succeeds and every row has one value per column. -/
theorem UCD_success {V : Type} (env : Env V) (r : Request) (glyphs : Rows V)
    (hconn : env.conn = true) (hq : env.query (selectQuery r) = some glyphs)
    (hwf : ∀ row ∈ glyphs.rows, row.length = glyphs.cols.length) :
    UCD env r = ⟨1, [selectQuery r], 1, Response.json
      (glyphs.rows.map (buildRecord glyphs.cols
        (validColsMap (validCols glyphs.cols (Split r.fields)))))⟩ := by
  unfold UCD
  simp only [hconn, Bool.not_true, Bool.false_eq_true, if_false, hq]
  rw [rowLoop_eq _ _ _ _ hwf]
  simp

theorem UCD_queries {V : Type} (env : Env V) (r : Request) (hconn : env.conn = true) :
    (UCD env r).queries = [selectQuery r] := by
  unfold UCD
  simp only [hconn, Bool.not_true, Bool.false_eq_true, if_false]
  cases env.query (selectQuery r) with
  | none => rfl
  | some glyphs =>
    simp only
    cases rowLoop glyphs.cols (validColsMap (validCols glyphs.cols (Split r.fields)))
      glyphs.rows [] <;> rfl

/-! ## The limit and the offset -/

/-- The effective limit always lies between 0 and 100. -/
theorem effectiveLimit_range (raw : String) :
    0 ≤ effectiveLimit raw ∧ effectiveLimit raw ≤ 100 := by
  unfold effectiveLimit
  rcases ParseInt raw with ⟨n, err⟩
  simp only
  split
  · omega
  · rename_i h
    simp only [not_or, not_lt] at h
    omega

/-- A raw limit that does not parse gives the effective limit 100. -/
theorem effectiveLimit_of_error (raw : String) (h : (ParseInt raw).2 ≠ none) :
    effectiveLimit raw = 100 := by
  unfold effectiveLimit
  rcases hp : ParseInt raw with ⟨n, err⟩
  rw [hp] at h
  simp only at h ⊢
  rw [if_pos (Or.inl h)]

/-- A raw limit that parses to a negative number or to more than 100 gives the
effective limit 100. -/
theorem effectiveLimit_of_out_of_range (raw : String) (n : Int)
    (hp : ParseInt raw = (n, none)) (h : n < 0 ∨ 100 < n) : effectiveLimit raw = 100 := by
  unfold effectiveLimit
  rw [hp]
  simp only
  rw [if_pos (Or.inr h)]

/-- A raw offset that does not parse gives the effective offset 0. -/
theorem effectiveOffset_of_error (raw : String) (h : (ParseInt raw).2 ≠ none) :
    effectiveOffset raw = 0 := by
  unfold effectiveOffset
  rcases hp : ParseInt raw with ⟨n, err⟩
  rw [hp] at h
  simp only at h ⊢
  rw [if_pos h]

/-- A raw offset that parses gives the parsed number as the effective offset,
whatever its sign. -/
theorem effectiveOffset_of_parsed (raw : String) (n : Int) (hp : ParseInt raw = (n, none)) :
    effectiveOffset raw = n := by
  unfold effectiveOffset
  rw [hp]
  simp

/-- A minus sign before decimal digits that denote a number from 1 to `2 ^ 31`
gives that number negated as the effective offset. -/
theorem effectiveOffset_minus_digits (ds : List Char) (hne : ds ≠ [])
    (hd : ∀ c ∈ ds, IsDigit c) (hv : decimalValue ds 0 ≤ 2 ^ 31) :
    effectiveOffset (String.mk ('-' :: ds)) = -((decimalValue ds 0 : Nat) : Int) := by
  apply effectiveOffset_of_parsed
  rw [ParseInt_minus_digits ds hne hd, if_pos hv]

/-- Claim C1, as stated, at the raw limit `"0"`: it parses to 0, which lies
outside the range 1..100, yet the effective limit is 0 and not 100, and the
handler issues the paginated query with the limit argument 0. -/
theorem limit_zero_not_reset :
    ParseInt "0" = (0, none) ∧
    effectiveLimit "0" = 0 ∧
    effectiveLimit "0" ≠ 100 ∧
    (UCD sampleStore ⟨"", "", "0", ""⟩).queries = [⟨limitSQL, [Arg.int 0]⟩] := by
  decide

/-- Claim C1, amended to the range 0..100: a raw limit that does not parse, or
parses to a negative number or to more than 100, gives the effective limit
100, and that is the limit argument of the paginated query the handler
issues, with and without an offset; so it is for the absent or empty limit,
for `"-5"` and for `"101"`. -/
theorem effectiveLimit_reset {V : Type} (env : Env V) (r : Request)
    (hconn : env.conn = true) (hcp : r.cp = "")
    (h : (ParseInt r.limit).2 ≠ none ∨ (ParseInt r.limit).1 < 0 ∨ 100 < (ParseInt r.limit).1) :
    effectiveLimit r.limit = 100 ∧
    (∃ q, (UCD env r).queries = [q] ∧ q.args.getLast? = some (Arg.int 100)) ∧
    effectiveLimit "" = 100 ∧ effectiveLimit "-5" = 100 ∧ effectiveLimit "101" = 100 := by
  have hl : effectiveLimit r.limit = 100 := by
    unfold effectiveLimit
    rcases hp : ParseInt r.limit with ⟨n, err⟩
    rw [hp] at h
    simp only at h ⊢
    rw [if_pos h]
  refine ⟨hl, ⟨selectQuery r, UCD_queries env r hconn, ?_⟩, by decide, by decide, by decide⟩
  unfold selectQuery
  simp only [hcp, if_true, hl]
  split <;> simp

theorem effectiveLimit_reset_witness :
    effectiveLimit "-5" = 100 ∧
      ∃ q, (UCD sampleStore ⟨"", "", "-5", "10"⟩).queries = [q] ∧
        q.args.getLast? = some (Arg.int 100) :=
  ⟨(effectiveLimit_reset sampleStore ⟨"", "", "-5", "10"⟩ rfl rfl
      (Or.inr (Or.inl (by decide)))).1,
   (effectiveLimit_reset sampleStore ⟨"", "", "-5", "10"⟩ rfl rfl
      (Or.inr (Or.inl (by decide)))).2.1⟩

/-- Claim C2, at the failing input `offset=-5`: the raw offset `"-5"` denotes a
negative integer, yet the effective offset is -5 and the handler issues the
paginated query with the offset argument -5. -/
theorem offset_negative_not_reset :
    effectiveOffset "-5" = -5 ∧
      (UCD sampleStore ⟨"", "", "", "-5"⟩).queries =
        [⟨offsetSQL, [Arg.int (-5), Arg.int 100]⟩] := by
  decide

/-- Claim C9: a raw limit that parses without error to `n` with
`0 ≤ n ≤ 100` gives the effective limit `n`; every other raw limit gives 100;
the raw limit `"0"` gives 0, as every decimal numeral of a number up to
100 gives that number, and every sequence of decimal digits that denotes a
number up to 100; and the paginated queries carry the effective limit as
their last argument. -/
theorem effectiveLimit_spec (raw : String) :
    (∀ n : Int, ParseInt raw = (n, none) → 0 ≤ n → n ≤ 100 → effectiveLimit raw = n) ∧
    ((¬ ∃ n : Int, ParseInt raw = (n, none) ∧ 0 ≤ n ∧ n ≤ 100) → effectiveLimit raw = 100) ∧
    effectiveLimit "0" = 0 ∧
    (∀ n : Nat, n ≤ 100 → effectiveLimit (Nat.repr n) = n) ∧
    (∀ ds : List Char, ds ≠ [] → (∀ c ∈ ds, IsDigit c) → decimalValue ds 0 ≤ 100 →
      effectiveLimit (String.mk ds) = decimalValue ds 0) ∧
    (∀ r : Request, r.cp = "" → r.limit = raw →
      (selectQuery r).args.getLast? = some (Arg.int (effectiveLimit raw))) := by
  refine ⟨?_, ?_, by decide, by decide, ?_, ?_⟩
  · intro n hp h0 h100
    unfold effectiveLimit
    rw [hp]
    simp only [ne_eq, not_true_eq_false, false_or]
    rw [if_neg (by omega)]
  · intro h
    unfold effectiveLimit
    rcases hp : ParseInt raw with ⟨n, err⟩
    simp only
    by_cases hc : err ≠ none ∨ n < 0 ∨ n > 100
    · rw [if_pos hc]
    · exfalso
      apply h
      refine ⟨n, ?_, ?_, ?_⟩
      · have : err = none := by
          by_contra he
          exact hc (Or.inl he)
        rw [hp, this]
      · omega
      · omega
  · intro ds hne hd hv
    unfold effectiveLimit
    rw [ParseInt_digits ds hne hd, if_pos (by norm_num; omega)]
    simp only [ne_eq, not_true_eq_false, false_or]
    rw [if_neg (by omega)]
  · intro r hcp hl
    unfold selectQuery
    simp only [hcp, if_true, hl]
    split <;> simp

theorem effectiveLimit_spec_witness :
    ParseInt "42" = (42, none) ∧ effectiveLimit "42" = 42 :=
  ⟨by decide, (effectiveLimit_spec "42").1 42 (by decide) (by decide) (by decide)⟩

/-! ## The query selection -/

theorem codepoints_eq_take (cp : String) : codepoints cp = (Split cp).take 100 := by
  unfold codepoints
  simp only
  split
  · rfl
  · rw [List.take_of_length_le (by omega)]

theorem selectQuery_eq (r : Request) :
    selectQuery r =
      if r.cp ≠ "" then ⟨filterSQL, [Arg.array ((Split r.cp).take 100)]⟩
      else if effectiveOffset r.offset ≠ 0 then
        ⟨offsetSQL, [Arg.int (effectiveOffset r.offset), Arg.int (effectiveLimit r.limit)]⟩
      else ⟨limitSQL, [Arg.int (effectiveLimit r.limit)]⟩ := by
  unfold selectQuery
  simp only [codepoints_eq_take]
  by_cases h : r.cp = ""
  · simp only [h, if_true, ne_eq, not_true_eq_false, if_false]
    split <;> rfl
  · simp only [h, if_false, ne_eq, not_false_eq_true, if_true]
    rfl

/-- Claim C3: when the handler has its connection it issues exactly one query:
for a non-empty raw `cp` the filter query, whose only argument is the array of
the first 100 comma-separated tokens of `cp`; otherwise, for an effective
offset other than 0, the paginated query with the arguments offset and limit;
otherwise the paginated query with the single argument limit. With a non-empty
`cp` the issued query is the same whatever `limit` and `offset` are. -/
theorem UCD_query_shape {V : Type} (env : Env V) (r : Request) (hconn : env.conn = true) :
    (UCD env r).queries =
      [if r.cp ≠ "" then ⟨filterSQL, [Arg.array ((Split r.cp).take 100)]⟩
       else if effectiveOffset r.offset ≠ 0 then
         ⟨offsetSQL, [Arg.int (effectiveOffset r.offset), Arg.int (effectiveLimit r.limit)]⟩
       else ⟨limitSQL, [Arg.int (effectiveLimit r.limit)]⟩] ∧
    (r.cp ≠ "" → ∀ limit offset : String,
      (UCD env ⟨r.cp, r.fields, limit, offset⟩).queries = (UCD env r).queries) := by
  refine ⟨?_, ?_⟩
  · rw [UCD_queries env r hconn, selectQuery_eq]
  · intro hcp limit offset
    rw [UCD_queries env r hconn, UCD_queries env _ hconn, selectQuery_eq, selectQuery_eq]
    simp only [hcp, ne_eq, not_false_eq_true, if_true]

theorem UCD_query_shape_witness :
    (UCD sampleStore ⟨"", "", "5", "10"⟩).queries =
      [⟨offsetSQL, [Arg.int 10, Arg.int 5]⟩] :=
  (UCD_query_shape sampleStore ⟨"", "", "5", "10"⟩ rfl).1.trans (by decide)

/-- Claim C4: for a non-empty raw `cp` the array passed to the filter query is
the slice `codepoints`, which is the list of the comma-separated tokens of
`cp` cut to its first 100 entries: it never has more than 100 entries, with
more than 100 tokens it has exactly 100 and agrees with the token list at
every position below 100, and with at most 100 tokens it is the whole token
list. The tokens are the pieces of `cp` between its commas, in order and
unchanged: joined by commas they give `cp` back, and none contains a comma. -/
theorem UCD_codepoints_first_100 {V : Type} (env : Env V) (r : Request)
    (hconn : env.conn = true) (hcp : r.cp ≠ "") :
    (UCD env r).queries = [⟨filterSQL, [Arg.array (codepoints r.cp)]⟩] ∧
    codepoints r.cp = (Split r.cp).take 100 ∧
    (codepoints r.cp).length ≤ 100 ∧
    (100 < (Split r.cp).length →
      (codepoints r.cp).length = 100 ∧
        ∀ i, i < 100 → (codepoints r.cp)[i]? = (Split r.cp)[i]?) ∧
    ((Split r.cp).length ≤ 100 → codepoints r.cp = Split r.cp) ∧
    List.intercalate [','] ((Split r.cp).map String.toList) = r.cp.toList ∧
    (∀ t ∈ Split r.cp, ',' ∉ t.toList) := by
  refine ⟨?_, codepoints_eq_take _, ?_, ?_, ?_, ?_, ?_⟩
  · rw [UCD_queries env r hconn, selectQuery_eq, codepoints_eq_take]
    simp only [hcp, ne_eq, not_false_eq_true, if_true]
  · rw [codepoints_eq_take, List.length_take]
    omega
  · intro hlen
    refine ⟨?_, ?_⟩
    · rw [codepoints_eq_take, List.length_take]
      omega
    · intro i hi
      rw [codepoints_eq_take, List.getElem?_take_of_lt hi]
  · intro hlen
    rw [codepoints_eq_take, List.take_of_length_le hlen]
  · have : (Split r.cp).map String.toList = splitChars r.cp.toList := by
      unfold Split
      rw [List.map_map]
      conv_rhs => rw [← List.map_id (splitChars r.cp.toList)]
      apply List.map_congr_left
      intro a _
      rfl
    rw [this, intercalate_splitChars]
  · intro t ht
    unfold Split at ht
    rw [List.mem_map] at ht
    obtain ⟨piece, hp, rfl⟩ := ht
    exact splitChars_no_comma _ piece hp

set_option maxRecDepth 1000000 in
theorem UCD_codepoints_first_100_witness :
    (Split manyCodepoints).length = 101 ∧ (codepoints manyCodepoints).length = 100 ∧
      (codepoints manyCodepoints)[99]? = some "0041" :=
  ⟨by decide,
   ((UCD_codepoints_first_100 sampleStore ⟨manyCodepoints, "", "", ""⟩ rfl (by decide)).2.2.2.1
      (by decide)).1,
   (((UCD_codepoints_first_100 sampleStore ⟨manyCodepoints, "", "", ""⟩ rfl
      (by decide)).2.2.2.1 (by decide)).2 99 (by decide)).trans (by decide)⟩

/-! ## The eligible columns and the records -/

/-- Claim C6: when no requested field occurs in `cols`, the slice `validCols`
is all of `cols`; in every case each entry of `validCols` occurs in `cols`,
and `validCols` is empty only when `cols` is empty. -/
theorem validCols_fallback (cols fields : List String) :
    ((∀ f ∈ fields, f ∉ cols) → validCols cols fields = cols) ∧
    (∀ c ∈ validCols cols fields, c ∈ cols) ∧
    (validCols cols fields = [] → cols = []) := by
  refine ⟨?_, validCols_subset cols fields, ?_⟩
  · exact validCols_of_no_match cols fields
  · intro h
    by_cases hi : intersection cols fields = []
    · rw [validCols_of_inter_nil _ _ hi] at h
      exact h
    · rw [validCols_of_inter_ne _ _ hi] at h
      exact absurd h hi

theorem validCols_fallback_witness :
    validCols ["cp", "name"] ["block", "age"] = ["cp", "name"] :=
  (validCols_fallback ["cp", "name"] ["block", "age"]).1 (by decide)

/-- Claim C5: when some name of the comma-separated `fields` parameter occurs
in the result columns, the handler answers with one record per row, and the
keys of every record are exactly the names that occur both in `fields` and in
the columns, each key once. -/
theorem UCD_records_exact_fields {V : Type} (env : Env V) (r : Request) (glyphs : Rows V)
    (hconn : env.conn = true) (hq : env.query (selectQuery r) = some glyphs)
    (hwf : ∀ row ∈ glyphs.rows, row.length = glyphs.cols.length)
    (hne : ∃ name ∈ Split r.fields, name ∈ glyphs.cols) :
    ∃ result, (UCD env r).response = Response.json result ∧
      result.length = glyphs.rows.length ∧
      ∀ m ∈ result, (GoMap.keys m).Nodup ∧
        ∀ k, k ∈ GoMap.keys m ↔ (k ∈ Split r.fields ∧ k ∈ glyphs.cols) := by
  refine ⟨_, by rw [UCD_success env r glyphs hconn hq hwf], by simp, ?_⟩
  intro m hm
  rw [List.mem_map] at hm
  obtain ⟨row, hrow, rfl⟩ := hm
  refine ⟨nodup_keys_buildRecord _ _ _, ?_⟩
  intro k
  rw [mem_keys_buildRecord _ _ _ (hwf row hrow), index_validColsMap]
  have hinter : intersection glyphs.cols (Split r.fields) ≠ [] := by
    obtain ⟨name, h1, h2⟩ := hne
    intro h
    have : name ∈ intersection glyphs.cols (Split r.fields) :=
      (mem_intersection _ _ _).mpr ⟨h1, h2⟩
    rw [h] at this
    exact absurd this (List.not_mem_nil _)
  rw [validCols_of_inter_ne _ _ hinter, mem_intersection]
  tauto

theorem UCD_records_exact_fields_witness :
    ∃ result, (UCD sampleStore ⟨"0041", "cp,block", "", ""⟩).response = Response.json result ∧
      result.length = 2 ∧
      ∀ m ∈ result, (GoMap.keys m).Nodup ∧
        ∀ k, k ∈ GoMap.keys m ↔ (k ∈ Split "cp,block" ∧ k ∈ ["cp", "name"]) :=
  UCD_records_exact_fields sampleStore ⟨"0041", "cp,block", "", ""⟩
    ⟨["cp", "name"], [["0041", "LATIN CAPITAL LETTER A"], ["0042", "LATIN CAPITAL LETTER B"]]⟩
    rfl rfl (by decide) ⟨"cp", by decide, by decide⟩

/-- The condition on the column names cannot be dropped from the fallback for
an absent `fields` parameter: the requested fields are then the one-entry list
of the empty string, and for a result with a column of the empty name (which
PostgreSQL, having no zero-length column names, does not deliver) the eligible
columns are that column alone. -/
theorem absent_fields_restrict_unnamed_column :
    Split "" = [""] ∧
    validCols ["", "cp"] (Split "") = [""] ∧
    validCols ["", "cp"] (Split "") ≠ ["", "cp"] ∧
    ∃ m, (UCD unnamedColumnStore ⟨"", "", "", ""⟩).response = Response.json [m] ∧
      GoMap.keys m = [""] ∧ "cp" ∉ GoMap.keys m := by
  refine ⟨by decide, by decide, by decide, [("", "x")], rfl, by decide, by decide⟩

/-- Claim C7: for every result column list of the Row Store, none of whose
columns has the empty name (PostgreSQL has no zero-length column names), with
the `fields` parameter absent or empty the eligible columns are all the
columns, the handler answers with one record per row whose keys are exactly
the columns, and the outcome is the same as for every `fields` value none of
whose names is a column. -/
theorem UCD_absent_fields {V : Type} (env : Env V) (r : Request) (glyphs : Rows V)
    (hconn : env.conn = true) (hq : env.query (selectQuery r) = some glyphs)
    (hwf : ∀ row ∈ glyphs.rows, row.length = glyphs.cols.length)
    (hfields : r.fields = "") (hnamed : "" ∉ glyphs.cols) :
    validCols glyphs.cols (Split r.fields) = glyphs.cols ∧
    (∃ result, (UCD env r).response = Response.json result ∧
      result.length = glyphs.rows.length ∧
      ∀ m ∈ result, ∀ k, k ∈ GoMap.keys m ↔ k ∈ glyphs.cols) ∧
    (∀ other : String, (∀ name ∈ Split other, name ∉ glyphs.cols) →
      UCD env ⟨r.cp, other, r.limit, r.offset⟩ = UCD env r) := by
  have hall : validCols glyphs.cols (Split r.fields) = glyphs.cols := by
    apply validCols_of_no_match
    intro f hf
    rw [hfields, Split_empty] at hf
    rw [List.mem_singleton.mp hf]
    exact hnamed
  refine ⟨hall, ⟨_, by rw [UCD_success env r glyphs hconn hq hwf], by simp, ?_⟩, ?_⟩
  · intro m hm k
    rw [List.mem_map] at hm
    obtain ⟨row, hrow, rfl⟩ := hm
    rw [mem_keys_buildRecord _ _ _ (hwf row hrow), index_validColsMap, hall]
    tauto
  · intro other hother
    have hq2 : env.query (selectQuery ⟨r.cp, other, r.limit, r.offset⟩) = some glyphs := by
      rw [← hq]
      rfl
    rw [UCD_success env r glyphs hconn hq hwf, UCD_success env _ glyphs hconn hq2 hwf, hall,
      validCols_of_no_match _ _ hother]
    rfl

theorem UCD_absent_fields_witness :
    validCols ["cp", "name"] (Split "") = ["cp", "name"] :=
  (UCD_absent_fields sampleStore ⟨"", "", "", ""⟩
    ⟨["cp", "name"], [["0041", "LATIN CAPITAL LETTER A"], ["0042", "LATIN CAPITAL LETTER B"]]⟩
    rfl rfl (by decide) rfl (by decide)).1

/-- Claim C10: with one value per column in every fetched row, the handler
answers with a result list that has one record per row in fetch order (no
rows give the empty list), and the record of a row maps every eligible column
name to the value the row holds in the last column of that name, and has no
key that is not an eligible column name. -/
theorem UCD_result_rows {V : Type} (env : Env V) (r : Request) (glyphs : Rows V)
    (hconn : env.conn = true) (hq : env.query (selectQuery r) = some glyphs)
    (hwf : ∀ row ∈ glyphs.rows, row.length = glyphs.cols.length) :
    ∃ result, (UCD env r).response = Response.json result ∧
      result.length = glyphs.rows.length ∧
      (glyphs.rows = [] → result = []) ∧
      ∀ (i : Nat) (row : List V), glyphs.rows[i]? = some row →
        ∃ m, result[i]? = some m ∧
          (∀ k, k ∈ GoMap.keys m ↔ k ∈ validCols glyphs.cols (Split r.fields)) ∧
          ∀ (j : Nat) (c : String) (v : V), glyphs.cols[j]? = some c → row[j]? = some v →
            c ∈ validCols glyphs.cols (Split r.fields) →
            (∀ j2 : Nat, j < j2 → glyphs.cols[j2]? ≠ some c) →
            GoMap.get m c = some v := by
  refine ⟨_, by rw [UCD_success env r glyphs hconn hq hwf], by simp, ?_, ?_⟩
  · intro h
    simp [h]
  · intro i row hrow
    refine ⟨buildRecord glyphs.cols
      (validColsMap (validCols glyphs.cols (Split r.fields))) row, ?_, ?_, ?_⟩
    · rw [List.getElem?_map, hrow]
      rfl
    · intro k
      have hmem : row ∈ glyphs.rows := List.getElem?_mem hrow
      rw [mem_keys_buildRecord _ _ _ (hwf row hmem), index_validColsMap]
      constructor
      · exact fun h => h.1
      · exact fun h => ⟨h, validCols_subset _ _ k h⟩
    · intro j c v hc hv hel hlast
      rw [buildRecord_eq]
      exact get_foldl_recordStep_last _ glyphs.cols row _ j c v hc hv
        ((index_validColsMap _ _).mpr hel) hlast

theorem UCD_result_rows_witness :
    ∃ result, (UCD sampleStore ⟨"", "name", "", ""⟩).response = Response.json result ∧
      result.length = 2 ∧
      ∃ m, result[1]? = some m ∧ GoMap.get m "name" = some "LATIN CAPITAL LETTER B" := by
  obtain ⟨result, h1, h2, _, h4⟩ := UCD_result_rows sampleStore ⟨"", "name", "", ""⟩
    ⟨["cp", "name"], [["0041", "LATIN CAPITAL LETTER A"], ["0042", "LATIN CAPITAL LETTER B"]]⟩
    rfl rfl (by decide)
  obtain ⟨m, hm, _, hval⟩ := h4 1 ["0042", "LATIN CAPITAL LETTER B"] rfl
  exact ⟨result, h1, h2, m, hm,
    hval 1 "name" "LATIN CAPITAL LETTER B" rfl rfl (by decide) (by
      intro j2 hj2
      have h2 : (["cp", "name"] : List String)[j2]? = none :=
        List.getElem?_eq_none (by simpa using hj2)
      rw [h2]
      exact fun h => Option.noConfusion h)⟩

/-! ## The connection -/

/-- On the path where the query returns an error the handler returns without
a call of `conn.Close()`. -/
theorem UCD_closed_on_query_error {V : Type} (env : Env V) (r : Request)
    (hconn : env.conn = true) (hq : env.query (selectQuery r) = none) :
    (UCD env r).acquired = 1 ∧ (UCD env r).closed = 0 := by
  unfold UCD
  simp [hconn, hq]

/-- On the success path the handler closes its connection once. -/
theorem UCD_closed_on_success {V : Type} (env : Env V) (r : Request) (glyphs : Rows V)
    (hconn : env.conn = true) (hq : env.query (selectQuery r) = some glyphs)
    (hwf : ∀ row ∈ glyphs.rows, row.length = glyphs.cols.length) :
    (UCD env r).acquired = 1 ∧ (UCD env r).closed = 1 := by
  rw [UCD_success env r glyphs hconn hq hwf]
  exact ⟨rfl, rfl⟩

/-- Claim C8, at the failing input of a request whose query the Row Store
answers with an error: the handler has acquired one connection and returns
with no call of `conn.Close()`. -/
theorem query_error_leaves_connection_open :
    (UCD failingStore ⟨"", "", "", "-5"⟩).acquired = 1 ∧
      (UCD failingStore ⟨"", "", "", "-5"⟩).closed = 0 := by
  decide

end FontPeek
